import Mathlib

/-!
Verification of the commit-log offset index (`server/commitlog/index.go`).

The Go source is shallowly embedded: machine integers (`int64`, `int32`,
`int`) become `Int` with explicit wrapping (`wrap32`) at every point where
the source performs a 32-bit conversion; the memory-mapped region becomes a
`List Nat` of bytes; fallible operations return sum types whose constructors
mirror the source's error paths (`io.EOF`, a Go runtime panic on an
out-of-bounds slice, `ErrIndexCorrupt`, and the "bad truncate number"
error).  The on-disk byte order follows `proto.Encoding`, which is not part
of this repository slice; it is modelled from the spec as big-endian.
-/

namespace Commitlog

/-- Width of the relative-offset field in bytes (`offsetWidth = 4`). -/
def offsetWidth : Nat := 4

/-- Width of the position field in bytes (`positionWidth = 4`). -/
def positionWidth : Nat := 4

/-- Width of the size field in bytes (`sizeWidth = 4`). -/
def sizeWidth : Nat := 4

/-- Total width of one on-disk index record (`entryWidth = 12`). -/
def entryWidth : Nat := offsetWidth + positionWidth + sizeWidth

/-- Go's `int32(x)` conversion: wrap an integer into `[-2^31, 2^31)`. -/
def wrap32 (x : Int) : Int := (x + 2 ^ 31) % 2 ^ 32 - 2 ^ 31

/-- An index entry as exchanged with callers: absolute log offset, byte
position of the record in the segment file, and record size.  Fields are
`int64`, `int64`, `int32` in the source; all are modelled as `Int`, with
32-bit wrapping applied exactly where the source converts. -/
structure Entry where
  Offset : Int
  Position : Int
  Size : Int
  deriving DecidableEq, Repr

/-- `relEntry` is an `Entry` relative to the base offset; all three fields
are `int32` in the source. -/
structure relEntry where
  Offset : Int
  Position : Int
  Size : Int
  deriving DecidableEq, Repr

/-- Source `newRelEntry(e, baseOffset)`: `Offset` and `Position` go through Go's
`int32(...)` conversion; `Size` is already an `int32` and is copied. -/
def newRelEntry (e : Entry) (baseOffset : Int) : relEntry :=
  { Offset := wrap32 (e.Offset - baseOffset)
    Position := wrap32 e.Position
    Size := e.Size }

/-- Source `relEntry.fill`: rebuild an absolute `Entry` from a relative one. -/
def relEntry.fill (rel : relEntry) (baseOffset : Int) : Entry :=
  { Offset := baseOffset + rel.Offset
    Position := rel.Position
    Size := rel.Size }

/-- Modelled from the spec: `proto.Encoding` (defined outside this
repository slice) is the fixed byte order used by `binary.Write` /
`binary.Read`; the spec fixes it as big-endian.  A 32-bit value becomes
four bytes, most significant first. -/
def bytes4 (x : Int) : List Nat :=
  let u := (x % 2 ^ 32).toNat
  [u / 2 ^ 24 % 2 ^ 8, u / 2 ^ 16 % 2 ^ 8, u / 2 ^ 8 % 2 ^ 8, u % 2 ^ 8]

/-- Decode four big-endian bytes into a signed 32-bit value. -/
def decode4 (b0 b1 b2 b3 : Nat) : Int :=
  wrap32 ((b0 * 2 ^ 24 + b1 * 2 ^ 16 + b2 * 2 ^ 8 + b3 : Nat) : Int)

/-- Encoding by `binary.Write(b, proto.Encoding, relEntry)`: the 12-byte record. -/
def encodeRel (r : relEntry) : List Nat :=
  bytes4 r.Offset ++ bytes4 r.Position ++ bytes4 r.Size

/-- Decoding by `binary.Read` of one 12-byte record (bytes beyond the slice never
occur; the source always hands exactly `entryWidth` bytes over). -/
def decodeRel (p : List Nat) : relEntry :=
  { Offset := decode4 (p.getD 0 0) (p.getD 1 0) (p.getD 2 0) (p.getD 3 0)
    Position := decode4 (p.getD 4 0) (p.getD 5 0) (p.getD 6 0) (p.getD 7 0)
    Size := decode4 (p.getD 8 0) (p.getD 9 0) (p.getD 10 0) (p.getD 11 0) }

/-- The byte stream produced by encoding a list of entries relative to
`baseOffset`, as `WriteEntries` builds it in its `bytes.Buffer`. -/
def encodeEntries (baseOffset : Int) (es : List Entry) : List Nat :=
  (es.map fun e => encodeRel (newRelEntry e baseOffset)).flatten

/-- The `entryWidth`-byte window of the mapped region starting at `off`
(`idx.mmap[off : off+entryWidth]`, after the bounds checks). -/
def readBytes (m : List Nat) (off : Nat) : List Nat :=
  (m.drop off).take entryWidth

/-- Go's `copy(m[off:], p)`: overwrite `m` from byte `off` with `p`,
cut off at the end of the region; the region's length never changes. -/
def writeBytes (m : List Nat) (off : Nat) (p : List Nat) : List Nat :=
  m.take off ++ p.take (m.length - off) ++ m.drop (off + p.length)

/-- The index store: `baseOffset` and `bytes` from `options`, the mapped
region `mmap`, and the write position (`idx.position`, an `int64`).  The
`path` string and OS file handle play no part in the mapped-region
semantics and are omitted. -/
structure Index where
  baseOffset : Int
  bytes : Int
  mmap : List Nat
  position : Int
  deriving DecidableEq, Repr

/-- Outcome of reading one entry: success, the `io.EOF` signal
(`EndOfIndex`), or a Go runtime panic from an out-of-bounds slice of the
mapped region. -/
inductive ReadResult where
  | ok (e : Entry)
  | endOfIndex
  | panicked
  deriving DecidableEq, Repr

/-- Source `ReadEntryAtFileOffset`: `ReadAt` first fails with `io.EOF` when
`idx.position < fileOffset+entryWidth`; otherwise `mmap[off : off+12]` is
sliced (a panic when out of bounds) and the record decoded and filled. -/
def ReadEntryAtFileOffset (idx : Index) (fileOffset : Int) : ReadResult :=
  if idx.position < fileOffset + (entryWidth : Int) then .endOfIndex
  else if fileOffset < 0 ∨ (idx.mmap.length : Int) < fileOffset + (entryWidth : Int) then
    .panicked
  else .ok ((decodeRel (readBytes idx.mmap fileOffset.toNat)).fill idx.baseOffset)

/-- Source `ReadEntryAtLogOffset(e, logOffset)` is `ReadEntryAtFileOffset` at `logOffset*entryWidth`. -/
def ReadEntryAtLogOffset (idx : Index) (logOffset : Int) : ReadResult :=
  ReadEntryAtFileOffset idx (logOffset * (entryWidth : Int))

/-- Source `WriteEntries`: encode every entry into one buffer, `WriteAt` it at the
current position (`none` models the Go panic when `mmap[position:]` is out
of bounds), then advance `position` by `entryWidth * len(entries)`.  The
source performs no capacity check. -/
def WriteEntries (idx : Index) (entries : List Entry) : Option Index :=
  let b := encodeEntries idx.baseOffset entries
  if idx.position < 0 ∨ (idx.mmap.length : Int) < idx.position then none
  else some { idx with
    mmap := writeBytes idx.mmap idx.position.toNat b
    position := idx.position + (entryWidth : Int) * entries.length }

/-- Source `TruncateEntries(number)`: reject (`bad truncate number`) when
`number*entryWidth > position`, else rewind `position`; the mapped bytes
are untouched. -/
def TruncateEntries (idx : Index) (number : Int) : Except Unit Index :=
  if idx.position < number * (entryWidth : Int) then .error ()
  else .ok { idx with position := number * (entryWidth : Int) }

/-- One probe of the predicate `InitializePosition` hands to `sort.Search`:
read the entry at slot `i` and test the all-zero sentinel
`entry.Position == 0 && entry.Size == 0`.  Any read error makes the Go
closure `panic`, modelled as `none`. -/
def searchPred (idx : Index) (i : Nat) : Option Bool :=
  match ReadEntryAtFileOffset idx ((i : Int) * (entryWidth : Int)) with
  | .ok e => some (decide (e.Position = 0 ∧ e.Size = 0))
  | _ => none

/-- The loop of Go's `sort.Search`: while `i < j`, probe `h = (i+j)/2` and
narrow to `[i, h]` or `[h+1, j]`.  `j - i` strictly decreases each
iteration, so `fuel` iterations suffice whenever `j - i ≤ fuel`; the
fuel-exhaustion branch returns `none` and is proven unreachable wherever
the function is used. -/
def searchGo (f : Nat → Option Bool) : Nat → Nat → Nat → Option Nat
  | fuel, i, j =>
    if i < j then
      match fuel with
      | 0 => none
      | fuel + 1 =>
        let h := (i + j) / 2
        match f h with
        | none => none
        | some true => searchGo f fuel i h
        | some false => searchGo f fuel (h + 1) j
    else some i

/-- Source `sort.Search(n, f)`: binary search over `[0, n)`. -/
def sortSearch (f : Nat → Option Bool) (n : Nat) : Option Nat :=
  searchGo f n 0 n

/-- Outcome of `InitializePosition`: a panic escaping `sort.Search` or the
final read, a propagated read error from the final read (`readErr`), the
`ErrIndexCorrupt` failure (`corrupt`, which returns no entry), or success
with the updated store and the optional last entry. -/
inductive InitResult where
  | panicked
  | readErr (idx : Index)
  | corrupt (idx : Index)
  | ok (idx : Index) (e : Option Entry)
  deriving DecidableEq, Repr

/-- Source `InitializePosition`: binary-search the first all-zero slot among
`n = bytes/entryWidth` candidates, set `position = i*entryWidth`, return no
entry when `i == 0`, otherwise decode slot `i-1` and sanity-check
`entry.Offset >= baseOffset` and `position % entryWidth == 0`, failing with
`ErrIndexCorrupt` on either violation. -/
def InitializePosition (idx : Index) : InitResult :=
  let n := (idx.bytes / (entryWidth : Int)).toNat
  match sortSearch (searchPred idx) n with
  | none => .panicked
  | some i =>
    let idx' := { idx with position := (i : Int) * (entryWidth : Int) }
    if i = 0 then .ok idx' none
    else
      match ReadEntryAtFileOffset idx' (((i - 1 : Nat) : Int) * (entryWidth : Int)) with
      | .panicked => .panicked
      | .endOfIndex => .readErr idx'
      | .ok e =>
        if e.Offset < idx'.baseOffset then .corrupt idx'
        else if ¬ idx'.position % (entryWidth : Int) = 0 then .corrupt idx'
        else .ok idx' (some e)

/-- The sequential scanner: the store and the current slot counter
(`s.offset`, an `int64`). -/
structure IndexScanner where
  idx : Index
  offset : Int
  deriving DecidableEq, Repr

/-- Source `NewIndexScanner(idx)`: a fresh cursor at slot 0. -/
def NewIndexScanner (idx : Index) : IndexScanner :=
  { idx := idx, offset := 0 }

/-- Source `IndexScanner.Scan`: read the entry at the current slot; propagate a
read failure, report `io.EOF` when the decoded offset is zero at a nonzero
slot, and only then advance the slot counter and return the entry. -/
def IndexScanner.Scan (s : IndexScanner) : ReadResult × IndexScanner :=
  match ReadEntryAtLogOffset s.idx s.offset with
  | .panicked => (.panicked, s)
  | .endOfIndex => (.endOfIndex, s)
  | .ok e =>
    if e.Offset = 0 ∧ ¬ s.offset = 0 then (.endOfIndex, s)
    else (.ok e, { s with offset := s.offset + 1 })

/-- Results of `n` successive `Scan` calls together with the final
scanner. -/
def runScans (s : IndexScanner) : Nat → List ReadResult × IndexScanner
  | 0 => ([], s)
  | n + 1 =>
    let (r, s') := s.Scan
    let (rs, s'') := runScans s' n
    (r :: rs, s'')

/-- A store over `n` pre-allocated slots whose mapped region holds the
encodings of `es` from slot 0 followed by zero bytes, with `position` at
the end of the written prefix: the state after the entries have been
appended contiguously from slot 0. -/
def storeWithEntries (base : Int) (n : Nat) (es : List Entry) : Index :=
  { baseOffset := base
    bytes := (n : Int) * (entryWidth : Int)
    mmap := encodeEntries base es ++ List.replicate (entryWidth * (n - es.length)) 0
    position := (es.length : Int) * (entryWidth : Int) }

/-- The same region reopened at its full pre-allocated capacity:
`NewIndex` sets `position` to the file size, so `position = n*entryWidth`
and the true write position is unknown until `InitializePosition` runs. -/
def reopenedStore (base : Int) (n : Nat) (es : List Entry) : Index :=
  { storeWithEntries base n es with position := (n : Int) * (entryWidth : Int) }

/-- A freshly initialized empty store over `n` slots: zero bytes
throughout and `position = 0`. -/
def emptyStore (base : Int) (n : Nat) : Index :=
  storeWithEntries base n []

/-- Runs `k` successive single-entry `WriteEntries` calls, as in the spec's
append scenarios; `none` when any append panics. -/
def appendEach (idx : Index) (es : List Entry) : Option Index :=
  es.foldlM (fun i e => WriteEntries i [e]) idx

/-- An entry all of whose on-disk fields are exactly representable: the
offset lies in the segment (`base ≤ Offset`) with a 32-bit spread, and
`Position` and `Size` fit their 32-bit fields. -/
def ValidEntry (base : Int) (e : Entry) : Prop :=
  base ≤ e.Offset ∧ e.Offset - base < 2 ^ 31 ∧
  -2 ^ 31 ≤ e.Position ∧ e.Position < 2 ^ 31 ∧
  -2 ^ 31 ≤ e.Size ∧ e.Size < 2 ^ 31

instance (base : Int) (e : Entry) : Decidable (ValidEntry base e) := by
  unfold ValidEntry; infer_instance

/-- Concrete scenario from the spec: `baseOffset = 100` with entries
`(100, 0, 50)`, `(101, 50, 60)`, `(102, 110, 40)`; used to instantiate the
claim theorems at explicit inputs. -/
def specEntries : List Entry := [⟨100, 0, 50⟩, ⟨101, 50, 60⟩, ⟨102, 110, 40⟩]

/-- Two further entries appended after a truncation in the witness of the
truncate-then-append scenario. -/
def newEntries : List Entry := [⟨103, 150, 20⟩, ⟨104, 170, 30⟩]

/-! ### Arithmetic facts about the 32-bit wrap -/

lemma entryWidth_eq : entryWidth = 12 := rfl

lemma wrap32_eq_self {x : Int} (h1 : -2 ^ 31 ≤ x) (h2 : x < 2 ^ 31) :
    wrap32 x = x := by
  unfold wrap32; omega

lemma wrap32_wrap32 (x : Int) : wrap32 (wrap32 x) = wrap32 x := by
  unfold wrap32; omega

lemma wrap32_lb (x : Int) : -2 ^ 31 ≤ wrap32 x := by
  unfold wrap32; omega

lemma wrap32_ub (x : Int) : wrap32 x < 2 ^ 31 := by
  unfold wrap32; omega

lemma bytes4_eq (x : Int) :
    bytes4 x = [(x % 2 ^ 32).toNat / 2 ^ 24 % 2 ^ 8, (x % 2 ^ 32).toNat / 2 ^ 16 % 2 ^ 8,
      (x % 2 ^ 32).toNat / 2 ^ 8 % 2 ^ 8, (x % 2 ^ 32).toNat % 2 ^ 8] := rfl

lemma decode4_bytes4 (x : Int) :
    decode4 ((x % 2 ^ 32).toNat / 2 ^ 24 % 2 ^ 8) ((x % 2 ^ 32).toNat / 2 ^ 16 % 2 ^ 8)
      ((x % 2 ^ 32).toNat / 2 ^ 8 % 2 ^ 8) ((x % 2 ^ 32).toNat % 2 ^ 8) = wrap32 x := by
  unfold decode4 wrap32
  have h1 : 0 ≤ x % 2 ^ 32 := Int.emod_nonneg x (by norm_num)
  have h2 : x % 2 ^ 32 < 2 ^ 32 := Int.emod_lt_of_pos x (by norm_num)
  omega

/-! ### Codec round trip -/

lemma bytes4_length (x : Int) : (bytes4 x).length = 4 := rfl

lemma encodeRel_length (r : relEntry) : (encodeRel r).length = entryWidth := by
  simp [encodeRel, bytes4_length, entryWidth, offsetWidth, positionWidth, sizeWidth]

lemma decodeRel_encodeRel (r : relEntry) :
    decodeRel (encodeRel r) = ⟨wrap32 r.Offset, wrap32 r.Position, wrap32 r.Size⟩ := by
  simp only [encodeRel, bytes4_eq, decodeRel]
  simp only [List.getD, List.cons_append, List.nil_append, List.getElem?_cons_zero,
    List.getElem?_cons_succ, Option.getD_some, relEntry.mk.injEq]
  exact ⟨decode4_bytes4 _, decode4_bytes4 _, decode4_bytes4 _⟩

lemma fill_decode_encode (base : Int) (e : Entry) (h : ValidEntry base e) :
    (decodeRel (encodeRel (newRelEntry e base))).fill base = e := by
  cases e with
  | mk o p s =>
    unfold ValidEntry at h
    dsimp only at h
    obtain ⟨h1, h2, h3, h4, h5, h6⟩ := h
    rw [decodeRel_encodeRel]
    simp only [newRelEntry, relEntry.fill, wrap32_wrap32, Entry.mk.injEq]
    refine ⟨?_, ?_, ?_⟩
    · rw [wrap32_eq_self (by omega) (by omega)]; ring
    · exact wrap32_eq_self h3 h4
    · exact wrap32_eq_self h5 h6

/-! ### Layout of the encoded region -/

lemma take_append_length {α : Type} (l1 l2 : List α) : (l1 ++ l2).take l1.length = l1 :=
  List.take_left l1 l2

lemma drop_append_length {α : Type} (l1 l2 : List α) (k : Nat) :
    (l1 ++ l2).drop (l1.length + k) = l2.drop k := by
  simp [List.drop_append]

lemma encodeEntries_cons (base : Int) (e : Entry) (es : List Entry) :
    encodeEntries base (e :: es) = encodeRel (newRelEntry e base) ++ encodeEntries base es := by
  simp [encodeEntries]

lemma encodeEntries_append (base : Int) (es1 es2 : List Entry) :
    encodeEntries base (es1 ++ es2) = encodeEntries base es1 ++ encodeEntries base es2 := by
  simp [encodeEntries]

lemma encodeEntries_length (base : Int) (es : List Entry) :
    (encodeEntries base es).length = entryWidth * es.length := by
  induction es with
  | nil => rfl
  | cons e es ih =>
    rw [encodeEntries_cons, List.length_append, encodeRel_length, ih, List.length_cons]
    ring

lemma readBytes_encodeEntries (base : Int) (es : List Entry) (rest : List Nat) :
    ∀ i (hi : i < es.length),
      readBytes (encodeEntries base es ++ rest) (entryWidth * i)
        = encodeRel (newRelEntry (es.get ⟨i, hi⟩) base) := by
  induction es with
  | nil => intro i hi; simp at hi
  | cons e es ih =>
    intro i hi
    cases i with
    | zero =>
      rw [encodeEntries_cons, List.append_assoc]
      unfold readBytes
      rw [Nat.mul_zero, List.drop_zero, ← encodeRel_length (newRelEntry e base),
        take_append_length]
      rfl
    | succ i =>
      have hstep : entryWidth * (i + 1) = (encodeRel (newRelEntry e base)).length
          + entryWidth * i := by
        rw [encodeRel_length]; ring
      have hi' : i < es.length := by simpa using Nat.lt_of_succ_lt_succ hi
      have hrec := ih i hi'
      unfold readBytes at hrec ⊢
      rw [encodeEntries_cons, List.append_assoc, hstep, drop_append_length]
      exact hrec

lemma readBytes_zeros (base : Int) (es : List Entry) (r i : Nat)
    (h1 : es.length ≤ i) (h2 : entryWidth * (i + 1) ≤ entryWidth * es.length + r) :
    readBytes (encodeEntries base es ++ List.replicate r 0) (entryWidth * i)
      = List.replicate entryWidth 0 := by
  unfold readBytes
  have hsplit : entryWidth * i = (encodeEntries base es).length
      + (entryWidth * i - entryWidth * es.length) := by
    rw [encodeEntries_length]
    have : entryWidth * es.length ≤ entryWidth * i := Nat.mul_le_mul_left _ h1
    omega
  rw [hsplit, drop_append_length, List.drop_replicate, List.take_replicate]
  congr 1
  simp only [entryWidth_eq] at h2 ⊢
  omega

lemma decodeRel_zeros : decodeRel (List.replicate entryWidth 0) = ⟨0, 0, 0⟩ := by decide

/-! ### Reads -/

lemma read_eof (idx : Index) (f : Int) (h : idx.position < f + (entryWidth : Int)) :
    ReadEntryAtFileOffset idx f = .endOfIndex := by
  unfold ReadEntryAtFileOffset
  rw [if_pos h]

lemma read_ok (idx : Index) (f : Nat)
    (hpos : (f : Int) + (entryWidth : Int) ≤ idx.position)
    (hlen : f + entryWidth ≤ idx.mmap.length) :
    ReadEntryAtFileOffset idx f
      = .ok ((decodeRel (readBytes idx.mmap f)).fill idx.baseOffset) := by
  unfold ReadEntryAtFileOffset
  rw [if_neg (by omega), if_neg (by omega)]
  norm_num

lemma read_panic (idx : Index) (f : Int)
    (hpos : f + (entryWidth : Int) ≤ idx.position)
    (hoob : f < 0 ∨ (idx.mmap.length : Int) < f + (entryWidth : Int)) :
    ReadEntryAtFileOffset idx f = .panicked := by
  unfold ReadEntryAtFileOffset
  rw [if_neg (by omega), if_pos hoob]

lemma read_slot_written (idx : Index) (es : List Entry) (rest : List Nat) (i : Nat)
    (hm : idx.mmap = encodeEntries idx.baseOffset es ++ rest)
    (hi : i < es.length)
    (hv : ValidEntry idx.baseOffset (es.get ⟨i, hi⟩))
    (hpos : ((i : Int) + 1) * (entryWidth : Int) ≤ idx.position) :
    ReadEntryAtFileOffset idx ((i : Int) * (entryWidth : Int)) = .ok (es.get ⟨i, hi⟩) := by
  have hlen : entryWidth * (i + 1) ≤ idx.mmap.length := by
    rw [hm, List.length_append, encodeEntries_length]
    have : entryWidth * (i + 1) ≤ entryWidth * es.length := Nat.mul_le_mul_left _ hi
    omega
  have hcast : ((i : Int) * (entryWidth : Int)) = ((entryWidth * i : Nat) : Int) := by
    push_cast; ring
  rw [hcast, read_ok idx (entryWidth * i)
    (by push_cast at hpos ⊢; simp only [entryWidth_eq] at *; omega)
    (by simp only [entryWidth_eq] at hlen ⊢; omega),
    hm, readBytes_encodeEntries _ _ _ i hi, fill_decode_encode _ _ hv]

lemma read_slot_zeros (idx : Index) (es : List Entry) (r i : Nat)
    (hm : idx.mmap = encodeEntries idx.baseOffset es ++ List.replicate r 0)
    (h1 : es.length ≤ i) (h2 : entryWidth * (i + 1) ≤ entryWidth * es.length + r)
    (hpos : ((i : Int) + 1) * (entryWidth : Int) ≤ idx.position) :
    ReadEntryAtFileOffset idx ((i : Int) * (entryWidth : Int))
      = .ok ⟨idx.baseOffset, 0, 0⟩ := by
  have hlen : entryWidth * (i + 1) ≤ idx.mmap.length := by
    rw [hm, List.length_append, encodeEntries_length, List.length_replicate]
    omega
  have hcast : ((i : Int) * (entryWidth : Int)) = ((entryWidth * i : Nat) : Int) := by
    push_cast; ring
  rw [hcast, read_ok idx (entryWidth * i)
    (by push_cast at hpos ⊢; simp only [entryWidth_eq] at *; omega)
    (by simp only [entryWidth_eq] at hlen ⊢; omega),
    hm, readBytes_zeros _ _ _ _ h1 h2, decodeRel_zeros]
  simp [relEntry.fill]

/-! ### Writes -/

lemma writeBytes_length (m : List Nat) (off : Nat) (p : List Nat) (h : off ≤ m.length) :
    (writeBytes m off p).length = m.length := by
  unfold writeBytes
  simp only [List.length_append, List.length_take, List.length_drop]
  omega

lemma drop_writeBytes (m : List Nat) (off : Nat) (p : List Nat) (h : off ≤ m.length) :
    (writeBytes m off p).drop off
      = p.take (m.length - off) ++ m.drop (off + p.length) := by
  unfold writeBytes
  rw [List.append_assoc]
  have hlen : (m.take off).length = off := by rw [List.length_take]; omega
  calc (m.take off ++ (p.take (m.length - off) ++ m.drop (off + p.length))).drop off
      = (m.take off
          ++ (p.take (m.length - off) ++ m.drop (off + p.length))).drop (m.take off).length := by
        rw [hlen]
    _ = p.take (m.length - off) ++ m.drop (off + p.length) := List.drop_left _ _

lemma readBytes_writeBytes (m : List Nat) (off : Nat) (p : List Nat)
    (h1 : off + entryWidth ≤ m.length) (h2 : entryWidth ≤ p.length) :
    readBytes (writeBytes m off p) off = p.take entryWidth := by
  unfold readBytes
  rw [drop_writeBytes _ _ _ (by omega),
    List.take_append_of_le_length (by rw [List.length_take]; omega), List.take_take]
  congr 1
  omega

lemma writeBytes_at_end (base : Int) (pre : List Entry) (e : Entry) (n : Nat)
    (h : pre.length < n) :
    writeBytes (encodeEntries base pre ++ List.replicate (entryWidth * (n - pre.length)) 0)
        (entryWidth * pre.length) (encodeRel (newRelEntry e base))
      = encodeEntries base (pre ++ [e])
          ++ List.replicate (entryWidth * (n - (pre.length + 1))) 0 := by
  unfold writeBytes
  have hL : (encodeEntries base pre ++ List.replicate (entryWidth * (n - pre.length)) 0).length
      = entryWidth * n := by
    rw [List.length_append, encodeEntries_length, List.length_replicate]
    simp only [entryWidth_eq]
    omega
  have htake1 : (encodeEntries base pre
        ++ List.replicate (entryWidth * (n - pre.length)) 0).take (entryWidth * pre.length)
      = encodeEntries base pre := by
    rw [← encodeEntries_length base pre]
    exact take_append_length _ _
  have htake2 : (encodeRel (newRelEntry e base)).take
        ((encodeEntries base pre ++ List.replicate (entryWidth * (n - pre.length)) 0).length
          - entryWidth * pre.length)
      = encodeRel (newRelEntry e base) := by
    refine List.take_of_length_le ?_
    rw [hL, encodeRel_length]
    simp only [entryWidth_eq]
    omega
  have hdrop : (encodeEntries base pre
        ++ List.replicate (entryWidth * (n - pre.length)) 0).drop
          (entryWidth * pre.length + (encodeRel (newRelEntry e base)).length)
      = List.replicate (entryWidth * (n - (pre.length + 1))) 0 := by
    rw [encodeRel_length, ← encodeEntries_length base pre, drop_append_length,
      List.drop_replicate]
    congr 1
    simp only [entryWidth_eq]
    omega
  have henc1 : encodeEntries base [e] = encodeRel (newRelEntry e base) := by
    simp [encodeEntries]
  rw [htake1, htake2, hdrop, encodeEntries_append, henc1]

lemma WriteEntries_shaped (base : Int) (n : Nat) (es : List Entry) (e : Entry)
    (h : es.length < n) :
    WriteEntries (storeWithEntries base n es) [e]
      = some (storeWithEntries base n (es ++ [e])) := by
  unfold WriteEntries storeWithEntries
  have hL : (encodeEntries base es ++ List.replicate (entryWidth * (n - es.length)) 0).length
      = entryWidth * n := by
    rw [List.length_append, encodeEntries_length, List.length_replicate]
    simp only [entryWidth_eq]
    omega
  rw [if_neg (by
    rw [hL]
    simp only [entryWidth_eq]
    push_cast
    omega)]
  simp only [Option.some.injEq, Index.mk.injEq, List.length_append, List.length_singleton]
  refine ⟨trivial, trivial, ?_, ?_⟩
  · have htn : ((es.length : Int) * ((entryWidth : Nat) : Int)).toNat
        = entryWidth * es.length := by
      simp only [entryWidth_eq]
      omega
    have henc1 : encodeEntries base [e] = encodeRel (newRelEntry e base) := by
      simp [encodeEntries]
    rw [htn, henc1]
    exact writeBytes_at_end base es e n h
  · push_cast
    ring

lemma appendEach_shaped (base : Int) (n : Nat) :
    ∀ (es pre : List Entry), pre.length + es.length ≤ n →
      appendEach (storeWithEntries base n pre) es
        = some (storeWithEntries base n (pre ++ es)) := by
  intro es
  induction es with
  | nil => intro pre _; simp [appendEach]
  | cons e es ih =>
    intro pre hle
    simp only [List.length_cons] at hle
    unfold appendEach
    rw [List.foldlM_cons, WriteEntries_shaped base n pre e (by omega)]
    have := ih (pre ++ [e]) (by simp only [List.length_append, List.length_singleton]; omega)
    unfold appendEach at this
    simpa using this

/-! ### The loop of sort.Search -/

lemma searchGo_stop (f : Nat → Option Bool) (fuel i j : Nat) (h : ¬ i < j) :
    searchGo f fuel i j = some i := by
  unfold searchGo
  rw [if_neg h]

lemma searchGo_succ (f : Nat → Option Bool) (fuel i j : Nat) (h : i < j) :
    searchGo f (fuel + 1) i j
      = match f ((i + j) / 2) with
        | none => none
        | some true => searchGo f fuel i ((i + j) / 2)
        | some false => searchGo f fuel ((i + j) / 2 + 1) j := by
  conv_lhs => unfold searchGo
  rw [if_pos h]

lemma searchGo_le (f : Nat → Option Bool) :
    ∀ (fuel i j r : Nat), i ≤ j → searchGo f fuel i j = some r → i ≤ r ∧ r ≤ j := by
  intro fuel
  induction fuel with
  | zero =>
    intro i j r hij hs
    by_cases h : i < j
    · unfold searchGo at hs
      rw [if_pos h] at hs
      exact absurd hs (by simp)
    · rw [searchGo_stop f 0 i j h] at hs
      simp at hs
      omega
  | succ fuel ih =>
    intro i j r hij hs
    by_cases h : i < j
    · rw [searchGo_succ f fuel i j h] at hs
      cases hfm : f ((i + j) / 2) with
      | none => rw [hfm] at hs; simp at hs
      | some b =>
        rw [hfm] at hs
        cases b with
        | true =>
          have := ih i ((i + j) / 2) r (by omega) hs
          omega
        | false =>
          have := ih ((i + j) / 2 + 1) j r (by omega) hs
          omega
    · rw [searchGo_stop f _ i j h] at hs
      simp at hs
      omega

lemma searchGo_finds (f : Nat → Option Bool) (k : Nat) :
    ∀ (fuel i j : Nat), j - i ≤ fuel → i ≤ k → k ≤ j →
      (∀ m, i ≤ m → m < j → f m = some (decide (k ≤ m))) →
      searchGo f fuel i j = some k := by
  intro fuel
  induction fuel with
  | zero =>
    intro i j hfuel hik hkj _
    rw [searchGo_stop f 0 i j (by omega)]
    congr 1
    omega
  | succ fuel ih =>
    intro i j hfuel hik hkj hf
    by_cases h : i < j
    · rw [searchGo_succ f fuel i j h]
      have hm1 : i ≤ (i + j) / 2 := by omega
      have hm2 : (i + j) / 2 < j := by omega
      rw [hf ((i + j) / 2) hm1 hm2]
      by_cases hk : k ≤ (i + j) / 2
      · rw [decide_eq_true hk]
        exact ih i ((i + j) / 2) (by omega) hik hk fun m h1 h2 => hf m h1 (by omega)
      · rw [decide_eq_false hk]
        exact ih ((i + j) / 2 + 1) j (by omega) (by omega) hkj fun m h1 h2 =>
          hf m (by omega) h2
    · rw [searchGo_stop f _ i j h]
      congr 1
      omega

lemma sortSearch_finds (f : Nat → Option Bool) (k n : Nat) (hk : k ≤ n)
    (hf : ∀ m, m < n → f m = some (decide (k ≤ m))) :
    sortSearch f n = some k :=
  searchGo_finds f k n 0 n (by omega) (by omega) hk fun m _ h2 => hf m h2

lemma sortSearch_le (f : Nat → Option Bool) (n r : Nat) (hs : sortSearch f n = some r) :
    r ≤ n :=
  (searchGo_le f n 0 n r (by omega) hs).2

/-! ### The recovery predicate on a reopened store -/

lemma reopenedStore_mmap (base : Int) (n : Nat) (es : List Entry) :
    (reopenedStore base n es).mmap
      = encodeEntries base es ++ List.replicate (entryWidth * (n - es.length)) 0 := rfl

lemma searchPred_reopened (base : Int) (n : Nat) (es : List Entry)
    (hk : es.length ≤ n)
    (hval : ∀ e ∈ es, ValidEntry base e)
    (hns : ∀ e ∈ es, ¬(e.Position = 0 ∧ e.Size = 0)) :
    ∀ m, m < n →
      searchPred (reopenedStore base n es) m = some (decide (es.length ≤ m)) := by
  intro m hm
  unfold searchPred
  by_cases hcase : m < es.length
  · have hget : es.get ⟨m, hcase⟩ ∈ es := List.get_mem es m hcase
    rw [read_slot_written (reopenedStore base n es) es
      (List.replicate (entryWidth * (n - es.length)) 0) m rfl hcase
      (hval _ hget)
      (by
        show ((m : Int) + 1) * (entryWidth : Int) ≤ (n : Int) * (entryWidth : Int)
        simp only [entryWidth_eq]
        push_cast
        omega)]
    have h1 : decide ((es.get ⟨m, hcase⟩).Position = 0 ∧ (es.get ⟨m, hcase⟩).Size = 0)
        = false := decide_eq_false (hns _ hget)
    have h2 : decide (es.length ≤ m) = false := decide_eq_false (by omega)
    simp only [h1, h2]
  · have hle : es.length ≤ m := by omega
    rw [read_slot_zeros (reopenedStore base n es) es (entryWidth * (n - es.length)) m rfl
      hle
      (by simp only [entryWidth_eq]; omega)
      (by
        show ((m : Int) + 1) * (entryWidth : Int) ≤ (n : Int) * (entryWidth : Int)
        simp only [entryWidth_eq]
        push_cast
        omega)]
    have h2 : decide (es.length ≤ m) = true := decide_eq_true hle
    simp only [h2]
    simp

lemma init_reopened (base : Int) (n : Nat) (es : List Entry)
    (hk : es.length ≤ n)
    (hval : ∀ e ∈ es, ValidEntry base e)
    (hns : ∀ e ∈ es, ¬(e.Position = 0 ∧ e.Size = 0)) :
    InitializePosition (reopenedStore base n es)
      = .ok { reopenedStore base n es with
          position := (es.length : Int) * (entryWidth : Int) } es.getLast? := by
  have hbytes : ((reopenedStore base n es).bytes / ((entryWidth : Nat) : Int)).toNat = n := by
    show (((n : Int) * (entryWidth : Int)) / (entryWidth : Int)).toNat = n
    simp only [entryWidth_eq]
    omega
  have hsearch := sortSearch_finds _ es.length n hk (searchPred_reopened base n es hk hval hns)
  simp only [InitializePosition, hbytes, hsearch]
  by_cases he : es.length = 0
  · have : es = [] := List.length_eq_zero.mp he
    subst this
    simp
  · rw [if_neg he]
    have hjlt : es.length - 1 < es.length := by omega
    have hget : es.get ⟨es.length - 1, hjlt⟩ ∈ es := List.get_mem es _ hjlt
    have hread := read_slot_written
      { reopenedStore base n es with position := (es.length : Int) * (entryWidth : Int) }
      es (List.replicate (entryWidth * (n - es.length)) 0) (es.length - 1) rfl hjlt
      (hval _ hget)
      (by simp only [entryWidth_eq]; push_cast; omega)
    simp only [hread]
    rw [if_neg (show ¬ (es.get ⟨es.length - 1, hjlt⟩).Offset
        < (reopenedStore base n es).baseOffset from not_lt.mpr (hval _ hget).1),
      if_neg (not_not_intro (Int.mul_emod_left _ _))]
    have hlast : es.getLast? = some (es.get ⟨es.length - 1, hjlt⟩) := by
      rw [List.getLast?_eq_getElem?, List.getElem?_eq_getElem hjlt]
      simp [List.get_eq_getElem]
    rw [hlast]

/-! ### Scanner steps -/

lemma scan_step (base : Int) (n : Nat) (es : List Entry) (j : Nat)
    (hj : j < es.length)
    (hval : ValidEntry base (es.get ⟨j, hj⟩))
    (hsent : j = 0 ∨ ¬ (es.get ⟨j, hj⟩).Offset = 0) :
    IndexScanner.Scan ⟨storeWithEntries base n es, (j : Int)⟩
      = (.ok (es.get ⟨j, hj⟩), ⟨storeWithEntries base n es, (j : Int) + 1⟩) := by
  unfold IndexScanner.Scan ReadEntryAtLogOffset
  have hread := read_slot_written (storeWithEntries base n es) es
    (List.replicate (entryWidth * (n - es.length)) 0) j rfl hj hval
    (by
      show ((j : Int) + 1) * (entryWidth : Int)
        ≤ (storeWithEntries base n es).position
      show ((j : Int) + 1) * (entryWidth : Int) ≤ (es.length : Int) * (entryWidth : Int)
      simp only [entryWidth_eq]
      push_cast
      omega)
  simp only [hread]
  rw [if_neg (by
    rintro ⟨h1, h2⟩
    rcases hsent with h | h
    · exact h2 (by rw [h]; norm_num)
    · exact h h1)]

lemma scan_end (base : Int) (n : Nat) (es : List Entry) :
    IndexScanner.Scan ⟨storeWithEntries base n es, (es.length : Int)⟩
      = (.endOfIndex, ⟨storeWithEntries base n es, (es.length : Int)⟩) := by
  unfold IndexScanner.Scan ReadEntryAtLogOffset
  rw [read_eof _ _ (by
    show (es.length : Int) * (entryWidth : Int)
      < (es.length : Int) * (entryWidth : Int) + (entryWidth : Int)
    simp only [entryWidth_eq]
    omega)]

lemma runScans_add (s : IndexScanner) (a b : Nat) :
    runScans s (a + b)
      = ((runScans s a).1 ++ (runScans (runScans s a).2 b).1,
          (runScans (runScans s a).2 b).2) := by
  induction a generalizing s with
  | zero => simp [runScans]
  | succ a ih =>
    have h1 : a + 1 + b = (a + b) + 1 := by ring
    rw [h1]
    rcases hscan : IndexScanner.Scan s with ⟨r, s2⟩
    simp only [runScans, hscan]
    rw [ih s2]
    simp

lemma runScans_shaped (base : Int) (n : Nat) (es : List Entry)
    (hval : ∀ e ∈ es, ValidEntry base e)
    (hsent : ∀ (j : Nat) (hj : j < es.length), j = 0 ∨ ¬ (es.get ⟨j, hj⟩).Offset = 0) :
    ∀ (c j : Nat), j + c = es.length →
      runScans ⟨storeWithEntries base n es, (j : Int)⟩ c
        = ((es.drop j).map .ok,
            ⟨storeWithEntries base n es, (es.length : Int)⟩) := by
  intro c
  induction c with
  | zero =>
    intro j hj
    have : j = es.length := by omega
    subst this
    simp [runScans]
  | succ c ih =>
    intro j hj
    have hjlt : j < es.length := by omega
    have hstep := scan_step base n es j hjlt (hval _ (List.get_mem es j hjlt)) (hsent j hjlt)
    simp only [runScans, hstep]
    have hcast : ((j : Int) + 1) = ((j + 1 : Nat) : Int) := by push_cast; ring
    rw [hcast, ih (j + 1) (by omega)]
    rw [List.drop_eq_getElem_cons hjlt]
    simp only [List.map_cons, List.get_eq_getElem]

/-! ### Claim theorems -/

/-- C2: for every entry with `offset ≥ baseOffset` whose relative offset,
position, and size are each representable in the 32-bit on-disk fields,
filling an `Entry` from `newRelEntry(entry, baseOffset)` with the same
`baseOffset` restores the original entry, with position and size passed
through unchanged. -/
theorem claim2_rel_roundtrip (base : Int) (e : Entry)
    (hoff : base ≤ e.Offset) (hspread : e.Offset - base < 2 ^ 31)
    (hpos1 : -2 ^ 31 ≤ e.Position) (hpos2 : e.Position < 2 ^ 31)
    (hsz1 : -2 ^ 31 ≤ e.Size) (hsz2 : e.Size < 2 ^ 31) :
    (newRelEntry e base).fill base = e := by
  cases e with
  | mk o p s =>
    dsimp only at hoff hspread hpos1 hpos2 hsz1 hsz2
    unfold newRelEntry relEntry.fill
    dsimp only
    rw [wrap32_eq_self (x := o - base) (by omega) (by omega),
      wrap32_eq_self hpos1 hpos2]
    simp only [Entry.mk.injEq]
    refine ⟨by ring, trivial, trivial⟩

/-- Witness for C2 at the spec's concrete entry `(101, 50, 60)` with
`baseOffset = 100`. -/
theorem claim2_rel_roundtrip_witness :
    (newRelEntry ⟨101, 50, 60⟩ 100).fill 100 = ⟨101, 50, 60⟩ :=
  claim2_rel_roundtrip 100 ⟨101, 50, 60⟩ (by decide) (by decide) (by decide)
    (by decide) (by decide) (by decide)

/-- C4: for every non-negative `count`, `TruncateEntries count` fails
exactly when `count * entryWidth` exceeds the current write position (the
store is returned unchanged in that case, since the update is never
reached), and otherwise rewinds `position` to `count * entryWidth` while
leaving every byte of the mapped region unchanged. -/
theorem claim4_truncate (idx : Index) (count : Int) (_h0 : 0 ≤ count) :
    (TruncateEntries idx count = .error ()
        ↔ idx.position < count * (entryWidth : Int))
    ∧ (count * (entryWidth : Int) ≤ idx.position →
        TruncateEntries idx count
          = .ok { idx with position := count * (entryWidth : Int) })
    ∧ (∀ idx2, TruncateEntries idx count = .ok idx2 →
        idx2.mmap = idx.mmap ∧ idx2.position = count * (entryWidth : Int)) := by
  unfold TruncateEntries
  by_cases h : idx.position < count * (entryWidth : Int)
  · rw [if_pos h]
    refine ⟨by simp [h], fun hle => absurd h (by omega), fun idx2 h2 => by cases h2⟩
  · rw [if_neg h]
    refine ⟨by simp [h], fun _ => rfl, fun idx2 h2 => ?_⟩
    cases h2
    exact ⟨rfl, rfl⟩

/-- Witness for C4: truncating the spec scenario's three-entry store to one
entry succeeds and rewinds the position to `entryWidth`. -/
theorem claim4_truncate_witness :
    TruncateEntries (storeWithEntries 100 5 specEntries) 1
      = .ok { storeWithEntries 100 5 specEntries with
          position := 1 * (entryWidth : Int) } :=
  (claim4_truncate (storeWithEntries 100 5 specEntries) 1 (by decide)).2.1 (by decide)

/-- C9: for every negative `count`, `TruncateEntries count` succeeds on a
store with non-negative write position (the guard only rejects counts whose
byte position exceeds `position`), leaving the write position at the
negative value `count * entryWidth`, after which every read fails with the
`EndOfIndex` signal. -/
theorem claim9_negative_truncate (idx : Index) (count : Int)
    (hneg : count < 0) (hpos : 0 ≤ idx.position) :
    TruncateEntries idx count
        = .ok { idx with position := count * (entryWidth : Int) }
    ∧ count * (entryWidth : Int) < 0
    ∧ ∀ f : Nat,
        ReadEntryAtFileOffset { idx with position := count * (entryWidth : Int) } (f : Int)
          = .endOfIndex := by
  refine ⟨?_, ?_, fun f => ?_⟩
  · unfold TruncateEntries
    rw [if_neg (by simp only [entryWidth_eq]; omega)]
  · simp only [entryWidth_eq]
    omega
  · exact read_eof _ _ (by
      show count * (entryWidth : Int) < (f : Int) + (entryWidth : Int)
      simp only [entryWidth_eq]
      omega)

/-- Witness for C9: `TruncateEntries (-1)` on the three-entry store
succeeds and leaves `position = -entryWidth`. -/
theorem claim9_negative_truncate_witness :
    TruncateEntries (storeWithEntries 100 5 specEntries) (-1)
      = .ok { storeWithEntries 100 5 specEntries with
          position := -1 * (entryWidth : Int) } :=
  (claim9_negative_truncate (storeWithEntries 100 5 specEntries) (-1)
    (by decide) (by decide)).1

/-- C10: `WriteEntries` performs no capacity check: from any store whose
position lies inside the mapped region it succeeds on every entry list and
advances `position` by `entryWidth * len(entries)` even past the region's
capacity, while the byte copy is cut off at the region's end (the region's
length never grows). -/
theorem claim10_write_unchecked (idx : Index) (entries : List Entry)
    (h0 : 0 ≤ idx.position) (hcap : idx.position ≤ (idx.mmap.length : Int)) :
    WriteEntries idx entries
      = some { idx with
          mmap := writeBytes idx.mmap idx.position.toNat
            (encodeEntries idx.baseOffset entries)
          position := idx.position + (entryWidth : Int) * entries.length }
    ∧ (writeBytes idx.mmap idx.position.toNat
        (encodeEntries idx.baseOffset entries)).length = idx.mmap.length := by
  constructor
  · unfold WriteEntries
    rw [if_neg (by omega)]
  · exact writeBytes_length _ _ _ (by omega)

/-- Witness for C10: appending the three spec entries to an empty
single-slot store succeeds, counts `position = 36` past the 12-byte
capacity, and leaves the region 12 bytes long. -/
theorem claim10_write_unchecked_witness :
    WriteEntries (emptyStore 100 1) specEntries
      = some { emptyStore 100 1 with
          mmap := writeBytes (emptyStore 100 1).mmap (emptyStore 100 1).position.toNat
            (encodeEntries (emptyStore 100 1).baseOffset specEntries)
          position := (emptyStore 100 1).position
            + (entryWidth : Int) * specEntries.length }
    ∧ (writeBytes (emptyStore 100 1).mmap (emptyStore 100 1).position.toNat
        (encodeEntries (emptyStore 100 1).baseOffset specEntries)).length
      = (emptyStore 100 1).mmap.length :=
  claim10_write_unchecked (emptyStore 100 1) specEntries (by decide) (by decide)

/-- C8 counterexample: on a freshly constructed scanner over an empty
store the first `Scan` fails with the `EndOfIndex` signal from the
underlying read, and the slot counter is NOT advanced by one — it is left
unchanged, contradicting the claim that every call advances it regardless
of outcome. -/
theorem claim8_counterexample :
    (IndexScanner.Scan (NewIndexScanner (emptyStore 0 1))).1 = .endOfIndex
    ∧ ¬ (IndexScanner.Scan (NewIndexScanner (emptyStore 0 1))).2.offset
        = (NewIndexScanner (emptyStore 0 1)).offset + 1 := by
  constructor
  · decide
  · decide

/-- C8 amended: `Scan` advances the slot counter by exactly one when it
returns an entry, and leaves the counter unchanged when the underlying
read fails or the zero-offset sentinel ends the sequence. -/
theorem claim8_scan_advance (s : IndexScanner) :
    (IndexScanner.Scan s).2.offset
      = (match (IndexScanner.Scan s).1 with
         | .ok _ => s.offset + 1
         | _ => s.offset) := by
  cases h : ReadEntryAtLogOffset s.idx s.offset with
  | panicked => simp only [IndexScanner.Scan, h]
  | endOfIndex => simp only [IndexScanner.Scan, h]
  | ok e =>
    simp only [IndexScanner.Scan, h]
    by_cases hc : e.Offset = 0 ∧ ¬ s.offset = 0
    · rw [if_pos hc]
    · rw [if_neg hc]

/-- C3: `ReadEntryAtFileOffset` fails with the `EndOfIndex` signal exactly
when `fileOffset + entryWidth > writePosition`, and otherwise succeeds with
the entry decoded from the `entryWidth` bytes at that offset; in
particular, after exactly `k` single-entry appends starting from empty,
reading slot `k` fails with `EndOfIndex` while reading slot `k-1` returns
the last appended entry. -/
theorem claim3_read_boundary
    (idx : Index) (hwf : idx.position ≤ (idx.mmap.length : Int)) (f : Nat)
    (base : Int) (n : Nat) (es : List Entry) (hlen : es.length ≤ n)
    (hval : ∀ e ∈ es, ValidEntry base e) (hne : es ≠ []) :
    ((ReadEntryAtFileOffset idx (f : Int) = .endOfIndex
        ↔ idx.position < (f : Int) + (entryWidth : Int))
      ∧ ((f : Int) + (entryWidth : Int) ≤ idx.position →
          ReadEntryAtFileOffset idx (f : Int)
            = .ok ((decodeRel (readBytes idx.mmap f)).fill idx.baseOffset)))
    ∧ appendEach (emptyStore base n) es = some (storeWithEntries base n es)
    ∧ ReadEntryAtLogOffset (storeWithEntries base n es) (es.length : Int) = .endOfIndex
    ∧ ReadEntryAtLogOffset (storeWithEntries base n es) ((es.length : Int) - 1)
        = .ok (es.getLast hne) := by
  refine ⟨⟨?_, ?_⟩, ?_, ?_, ?_⟩
  · by_cases hc : idx.position < (f : Int) + (entryWidth : Int)
    · simp [read_eof idx (f : Int) hc, hc]
    · rw [read_ok idx f (by omega)
        (by simp only [entryWidth_eq] at hc hwf ⊢; omega)]
      simp [hc]
  · intro hle
    exact read_ok idx f hle (by simp only [entryWidth_eq] at hle hwf ⊢; omega)
  · have h := appendEach_shaped base n es [] (by simpa using hlen)
    simpa [emptyStore] using h
  · unfold ReadEntryAtLogOffset
    refine read_eof _ _ ?_
    show (es.length : Int) * (entryWidth : Int)
      < (es.length : Int) * (entryWidth : Int) + (entryWidth : Int)
    simp only [entryWidth_eq]
    omega
  · have hk : 0 < es.length := List.length_pos.mpr hne
    have hlt : es.length - 1 < es.length := by omega
    unfold ReadEntryAtLogOffset
    have hc : ((es.length : Int) - 1) * (entryWidth : Int)
        = ((es.length - 1 : Nat) : Int) * (entryWidth : Int) := by
      simp only [entryWidth_eq]
      omega
    rw [hc, read_slot_written (storeWithEntries base n es) es
      (List.replicate (entryWidth * (n - es.length)) 0) (es.length - 1) rfl hlt
      (hval _ (List.get_mem es _ hlt))
      (by
        show (((es.length - 1 : Nat) : Int) + 1) * (entryWidth : Int)
          ≤ (es.length : Int) * (entryWidth : Int)
        simp only [entryWidth_eq]
        omega)]
    have hg : es.getLast hne = es.get ⟨es.length - 1, hlt⟩ := by
      rw [List.getLast_eq_getElem]
      simp [List.get_eq_getElem]
    rw [hg]

/-- Witness for C3 at the spec scenario: the three-entry store arises from
three single-entry appends to an empty five-slot store, reading slot 3
fails with `EndOfIndex`, and reading slot 2 returns the last entry. -/
theorem claim3_read_boundary_witness :
    appendEach (emptyStore 100 5) specEntries = some (storeWithEntries 100 5 specEntries)
    ∧ ReadEntryAtLogOffset (storeWithEntries 100 5 specEntries)
        ((specEntries.length : Int)) = .endOfIndex
    ∧ ReadEntryAtLogOffset (storeWithEntries 100 5 specEntries)
        ((specEntries.length : Int) - 1) = .ok (specEntries.getLast (by decide)) :=
  (claim3_read_boundary (storeWithEntries 100 5 specEntries) (by decide) 0 100 5
    specEntries (by decide) (by decide) (by decide)).2

/-- C1: on a store reopened at full pre-allocated capacity after `k`
entries were appended contiguously from slot 0 (written slots decode
non-sentinel, unwritten slots decode to all zeros), the recovery search
finds the smallest all-zero slot index `k`, `InitializePosition` sets
`writePosition = k * entryWidth`, and it returns no entry when `k = 0` and
otherwise the decoded entry of slot `k-1`, equal to the `k`-th appended
entry. -/
theorem claim1_recovery (base : Int) (n : Nat) (es : List Entry)
    (hk : es.length ≤ n)
    (hval : ∀ e ∈ es, ValidEntry base e)
    (hns : ∀ e ∈ es, ¬(e.Position = 0 ∧ e.Size = 0)) :
    (∀ m, m < n →
        searchPred (reopenedStore base n es) m = some (decide (es.length ≤ m)))
    ∧ sortSearch (searchPred (reopenedStore base n es)) n = some es.length
    ∧ InitializePosition (reopenedStore base n es)
        = .ok { reopenedStore base n es with
            position := (es.length : Int) * (entryWidth : Int) } es.getLast? := by
  have hpred := searchPred_reopened base n es hk hval hns
  exact ⟨hpred, sortSearch_finds _ _ _ hk hpred, init_reopened base n es hk hval hns⟩

/-- Witness for C1 at the spec scenario reopened with five slots: recovery
finds `writePosition = 36` and returns the third appended entry. -/
theorem claim1_recovery_witness :
    InitializePosition (reopenedStore 100 5 specEntries)
      = .ok { reopenedStore 100 5 specEntries with
          position := (specEntries.length : Int) * (entryWidth : Int) }
          specEntries.getLast? :=
  (claim1_recovery 100 5 specEntries (by decide) (by decide) (by decide)).2.2

/-- C6: whenever the recovery search finds its first empty slot at an index
`i > 0` (and the final read of slot `i-1` decodes entry `e`),
`InitializePosition` fails with `CorruptIndex` exactly when `e.offset`
lies below `baseOffset` or the new write position `i * entryWidth` is not
a multiple of `entryWidth`; the `corrupt` outcome carries no entry. -/
theorem claim6_corrupt (idx : Index) (i : Nat) (e : Entry)
    (hsearch : sortSearch (searchPred idx)
        (idx.bytes / ((entryWidth : Nat) : Int)).toNat = some i)
    (hi : 0 < i)
    (hread : ReadEntryAtFileOffset
        { idx with position := (i : Int) * (entryWidth : Int) }
        (((i - 1 : Nat) : Int) * (entryWidth : Int)) = .ok e) :
    InitializePosition idx
        = .corrupt { idx with position := (i : Int) * (entryWidth : Int) }
      ↔ (e.Offset < idx.baseOffset
          ∨ ¬ ((i : Int) * (entryWidth : Int)) % (entryWidth : Int) = 0) := by
  simp only [InitializePosition, hsearch]
  rw [if_neg (by omega)]
  simp only [hread]
  have h2 : ((i : Int) * (entryWidth : Int)) % (entryWidth : Int) = 0 :=
    Int.mul_emod_left _ _
  by_cases h1 : e.Offset < idx.baseOffset
  · rw [if_pos h1]
    simp [h1]
  · rw [if_neg h1, if_neg (not_not_intro h2)]
    simp [h1, h2]

/-- Witness for C6: a single-slot store whose one entry decodes to offset
`0` below `baseOffset = 5`; the search finds `i = 1` and recovery fails
with `CorruptIndex`. -/
theorem claim6_corrupt_witness :
    InitializePosition (reopenedStore 5 1 [⟨0, 7, 3⟩])
      = .corrupt { reopenedStore 5 1 [⟨0, 7, 3⟩] with
          position := (1 : Int) * (entryWidth : Int) } :=
  (claim6_corrupt (reopenedStore 5 1 [⟨0, 7, 3⟩]) 1 ⟨0, 7, 3⟩
    (by decide) (by decide) (by decide)).mpr (Or.inl (by decide))

/-- C5: on a store holding `k` entries, truncating to `m < k` entries and
then appending `j` fresh entries yields `writePosition = (m+j)*entryWidth`,
and reading slot `m` afterwards returns the first newly appended entry —
the old bytes of that slot are fully overwritten. -/
theorem claim5_truncate_append (idx : Index) (k m : Nat) (es2 : List Entry)
    (hpos : idx.position = (k : Int) * (entryWidth : Int))
    (hlen : (k : Int) * (entryWidth : Int) ≤ (idx.mmap.length : Int))
    (hm : m < k)
    (hne : es2 ≠ [])
    (hval : ValidEntry idx.baseOffset (es2.head hne)) :
    ∃ idx1 idx2,
      TruncateEntries idx (m : Int) = .ok idx1
      ∧ WriteEntries idx1 es2 = some idx2
      ∧ idx2.position = ((m : Int) + (es2.length : Int)) * (entryWidth : Int)
      ∧ ReadEntryAtLogOffset idx2 (m : Int) = .ok (es2.head hne) := by
  have hj : 0 < es2.length := List.length_pos.mpr hne
  have hmn : ((m : Int) * (entryWidth : Int)).toNat = entryWidth * m := by
    simp only [entryWidth_eq]
    omega
  have hmlen : entryWidth * m + entryWidth ≤ idx.mmap.length := by
    simp only [entryWidth_eq] at hlen ⊢
    push_cast at hlen
    omega
  have hplen : entryWidth ≤ (encodeEntries idx.baseOffset es2).length := by
    rw [encodeEntries_length]
    simp only [entryWidth_eq]
    omega
  refine ⟨{ idx with position := (m : Int) * (entryWidth : Int) },
    { idx with
        mmap := writeBytes idx.mmap (entryWidth * m) (encodeEntries idx.baseOffset es2)
        position := ((m : Int) + (es2.length : Int)) * (entryWidth : Int) },
    ?_, ?_, rfl, ?_⟩
  · unfold TruncateEntries
    rw [if_neg (by rw [hpos]; simp only [entryWidth_eq]; push_cast; omega)]
  · simp only [WriteEntries]
    rw [if_neg (by
      show ¬ ((m : Int) * (entryWidth : Int) < 0
        ∨ (idx.mmap.length : Int) < (m : Int) * (entryWidth : Int))
      simp only [entryWidth_eq] at hlen ⊢
      push_cast at hlen ⊢
      omega)]
    simp only [Option.some.injEq, Index.mk.injEq]
    refine ⟨trivial, trivial, ?_, ?_⟩
    · rw [hmn]
    · simp only [entryWidth_eq]
      push_cast
      ring
  · unfold ReadEntryAtLogOffset
    have hco : ((m : Int) * (entryWidth : Int)) = ((entryWidth * m : Nat) : Int) := by
      push_cast
      ring
    rw [hco, read_ok _ (entryWidth * m)
      (by
        show ((entryWidth * m : Nat) : Int) + (entryWidth : Int)
          ≤ ((m : Int) + (es2.length : Int)) * (entryWidth : Int)
        simp only [entryWidth_eq]
        push_cast
        omega)
      (by
        show entryWidth * m + entryWidth
          ≤ (writeBytes idx.mmap (entryWidth * m)
              (encodeEntries idx.baseOffset es2)).length
        rw [writeBytes_length _ _ _ (by omega)]
        omega)]
    show ReadResult.ok ((decodeRel (readBytes
        (writeBytes idx.mmap (entryWidth * m) (encodeEntries idx.baseOffset es2))
        (entryWidth * m))).fill idx.baseOffset)
      = ReadResult.ok (es2.head hne)
    rw [readBytes_writeBytes idx.mmap (entryWidth * m) _ hmlen hplen]
    have hsplit : es2 = es2.head hne :: es2.tail := (List.head_cons_tail es2 hne).symm
    conv_lhs => rw [hsplit]
    rw [encodeEntries_cons,
      ← encodeRel_length (newRelEntry (es2.head hne) idx.baseOffset),
      take_append_length]
    congr 1
    exact fill_decode_encode _ _ hval

/-- Witness for C5: truncate the spec scenario's three-entry store to one
entry, append two new entries, and read back the first of them at slot 1. -/
theorem claim5_truncate_append_witness :
    ∃ idx1 idx2,
      TruncateEntries (storeWithEntries 100 5 specEntries) ((1 : Nat) : Int) = .ok idx1
      ∧ WriteEntries idx1 newEntries = some idx2
      ∧ idx2.position = (((1 : Nat) : Int) + (newEntries.length : Int)) * (entryWidth : Int)
      ∧ ReadEntryAtLogOffset idx2 ((1 : Nat) : Int) = .ok (newEntries.head (by decide)) :=
  claim5_truncate_append (storeWithEntries 100 5 specEntries) 3 1 newEntries
    (by decide) (by decide) (by decide) (by decide) (by decide)

/-- C7: a fresh scanner over a store holding exactly `k` appended entries
with strictly increasing logical offsets returns the `k` entries in append
order on its first `k` calls, and the `(k+1)`-th call fails with the
`EndOfIndex` signal. -/
theorem claim7_scanner (base : Int) (n : Nat) (es : List Entry)
    (hbase : 0 ≤ base)
    (hval : ∀ e ∈ es, ValidEntry base e)
    (hmono : es.Pairwise fun a b => a.Offset < b.Offset) :
    (runScans (NewIndexScanner (storeWithEntries base n es)) es.length).1
        = es.map .ok
    ∧ (runScans (NewIndexScanner (storeWithEntries base n es)) (es.length + 1)).1
        = es.map .ok ++ [.endOfIndex] := by
  have hsent : ∀ (j : Nat) (hj : j < es.length),
      j = 0 ∨ ¬ (es.get ⟨j, hj⟩).Offset = 0 := by
    intro j hj
    cases Nat.eq_zero_or_pos j with
    | inl h => exact Or.inl h
    | inr h =>
      refine Or.inr fun hzero => ?_
      have h0lt : 0 < es.length := by omega
      have hrel := List.pairwise_iff_get.mp hmono ⟨0, h0lt⟩ ⟨j, hj⟩
        (Fin.mk_lt_mk.mpr h)
      have hb := (hval _ (List.get_mem es 0 h0lt)).1
      rw [hzero] at hrel
      omega
  have hfresh : NewIndexScanner (storeWithEntries base n es)
      = ⟨storeWithEntries base n es, ((0 : Nat) : Int)⟩ := by
    simp [NewIndexScanner]
  have hrun := runScans_shaped base n es hval hsent es.length 0 (by omega)
  constructor
  · rw [hfresh, hrun]
    simp
  · rw [hfresh, runScans_add ⟨storeWithEntries base n es, ((0 : Nat) : Int)⟩
      es.length 1, hrun]
    simp only [runScans, scan_end base n es]
    simp

/-- Witness for C7: the spec scenario's scanner yields the three entries
then fails with `EndOfIndex` on the fourth call. -/
theorem claim7_scanner_witness :
    (runScans (NewIndexScanner (storeWithEntries 100 5 specEntries))
        specEntries.length).1 = specEntries.map .ok
    ∧ (runScans (NewIndexScanner (storeWithEntries 100 5 specEntries))
        (specEntries.length + 1)).1 = specEntries.map .ok ++ [.endOfIndex] :=
  claim7_scanner 100 5 specEntries (by decide) (by decide) (by decide)

end Commitlog
